import Mathlib

/-!
# list-servers: the filter pipeline and the text renderings

A shallow embedding of `list-servers.go`.  Go strings are sequences of characters, Go slices
are a backing array together with a length, and the text a function prints is the value it
returns.
-/

namespace ListServers

/-! ## Data model -/

/-- A Go `string`, as the sequence of its characters.  The program only compares strings for
equality, splits them at `,` and tests or trims a leading `!`. -/
abbrev GoString := List Char

/-- Go `type Tags []string`; the program only reads tag sequences. -/
abbrev Tags := List GoString

/-- Go `type Server struct { Name; Environment; Tags }`. -/
structure Server where
  Name : GoString
  Environment : GoString
  Tags : Tags
deriving DecidableEq, Repr

/-- Go `type Servers []Server`: a slice.  `store` is the content of the backing array from the
start of the slice on (its length is the capacity of the slice), `len` is the length of the
slice.  Go keeps `len ≤ cap`. -/
structure Servers where
  store : List Server
  len : Nat
deriving DecidableEq, Repr

/-- The elements of a slice: the first `len` cells of its backing array. -/
def Servers.toList (servers : Servers) : List Server :=
  servers.store.take servers.len

/-- The slice invariant of Go: the length does not exceed the capacity. -/
def Servers.WF (servers : Servers) : Prop :=
  servers.len ≤ servers.store.length

instance (servers : Servers) : Decidable servers.WF :=
  inferInstanceAs (Decidable (servers.len ≤ servers.store.length))

/-! ## Standard library functions used by the program -/

/-- Go `strings.HasPrefix`: `len(s) >= len(prefix) && s[:len(prefix)] == prefix`. -/
def HasPrefix (s pre : GoString) : Bool :=
  decide (pre.length ≤ s.length) && decide (s.take pre.length = pre)

/-- Go `strings.TrimPrefix`: `s` without the leading `prefix`, or `s` itself when it does not
start with `prefix`. -/
def TrimPrefix (s pre : GoString) : GoString :=
  if HasPrefix s pre then s.drop pre.length else s

/-- Go `strings.Split(s, ",")`: the substrings of `s` between the commas, in order; a string
without a comma gives the one-element list `[s]`, and `n` commas give `n + 1` pieces. -/
def Split : GoString → List GoString
  | [] => [[]]
  | c :: s =>
    if c = ',' then [] :: Split s
    else
      match Split s with
      | [] => [[c]]
      | piece :: pieces => (c :: piece) :: pieces

/-! ## The in-place filters -/

/-- The variables of a filter loop that touch storage: `src` is the current content of the
backing array of `servers`, `own` is the backing array of `filtered` once `append` had to
allocate one (`none`: `filtered` still shares the array of `servers`), and `len` is
`len(filtered)`, the write index. -/
structure Filtered where
  src : List Server
  own : Option (List Server)
  len : Nat
deriving DecidableEq, Repr

/-- Go `filtered = append(filtered, server)`: when the length is below the capacity the record
is written into cell `len` of the backing array of `filtered` (which is the array of `servers`
as long as they share it); otherwise a new array is allocated, holding the old elements and the
new record. -/
def Filtered.append (filtered : Filtered) (server : Server) : Filtered :=
  match filtered.own with
  | none =>
    if filtered.len < filtered.src.length then
      { filtered with src := filtered.src.set filtered.len server, len := filtered.len + 1 }
    else
      { filtered with own := some (filtered.src.take filtered.len ++ [server]),
                      len := filtered.len + 1 }
  | some array =>
    if filtered.len < array.length then
      { filtered with own := some (array.set filtered.len server), len := filtered.len + 1 }
    else
      { filtered with own := some (array.take filtered.len ++ [server]),
                      len := filtered.len + 1 }

/-- The slice value of `filtered`. -/
def Filtered.toServers (filtered : Filtered) : Servers :=
  ⟨filtered.own.getD filtered.src, filtered.len⟩

/-- One iteration of `for _, server := range servers { if keep(server) { append } }` at read
index `i`: the record is read from cell `i` of the array of `servers` as it is now. -/
def filterStep (keep : Server → Bool) (filtered : Filtered) (i : Nat) : Filtered :=
  match filtered.src[i]? with
  | some server => if keep server then filtered.append server else filtered
  | none => filtered

/-- The loop shared by both filters: `filtered := servers[:0]`, then one iteration for each
read index `0 ≤ i < len(servers)`, then `return filtered`. -/
def filterLoop (keep : Server → Bool) (servers : Servers) : Servers :=
  ((List.range servers.len).foldl (filterStep keep) ⟨servers.store, none, 0⟩).toServers

/-- The variables of a filter loop after the iterations at the read indices below `k`. -/
def filterLoopAt (keep : Server → Bool) (servers : Servers) (k : Nat) : Filtered :=
  (List.range k).foldl (filterStep keep) ⟨servers.store, none, 0⟩

/-- Go `filterByEnvironment`. -/
def filterByEnvironment (servers : Servers) (environment : GoString) : Servers :=
  filterLoop (fun server => decide (server.Environment = environment)) servers

/-- Go `contains`: linear search with early return. -/
def contains : List GoString → GoString → Bool
  | [], _ => false
  | tag :: tags, expectedTag => if tag = expectedTag then true else contains tags expectedTag

/-- The condition under which the body of the loop of `filterByTag` appends `server`. -/
def tagKeeps (tag : GoString) (server : Server) : Bool :=
  if HasPrefix tag ['!'] then
    !contains server.Tags (TrimPrefix tag ['!'])
  else
    contains server.Tags tag

/-- Go `filterByTag`. -/
def filterByTag (servers : Servers) (tag : GoString) : Servers :=
  filterLoop (tagKeeps tag) servers

/-- Go `filterServers`.  The tag list is `none` for a nil slice. -/
def filterServers (servers : Servers) (environment : GoString)
    (tags : Option (List GoString)) : Servers :=
  let servers := if environment ≠ [] then filterByEnvironment servers environment else servers
  match tags with
  | none => servers
  | some tags =>
    if tags.length ≠ 0 then
      tags.foldl
        (fun servers tag =>
          (Split tag).foldl (fun servers splitTag => filterByTag servers splitTag) servers)
        servers
    else servers

/-! ## The renderings -/

/-- Go `listNamesOutput`; the value is the text written to standard output.  The buffer receives
each name, followed by a comma when `index < len(servers) - 1` (signed arithmetic), and
`fmt.Println` writes the buffer and a newline. -/
def listNamesOutput (servers : Servers) : GoString :=
  let buffer := servers.toList.enum.foldl
    (fun (buffer : GoString) (entry : Nat × Server) =>
      let buffer := buffer ++ entry.2.Name
      if (entry.1 : Int) < (servers.len : Int) - 1 then buffer ++ [','] else buffer)
    []
  buffer ++ ['\n']

/-- Go `printJSONOutput`; `MarshalIndent` stands for `json.MarshalIndent(servers, "", "  ")` of
the standard library, which gives the text or an error message. -/
def printJSONOutput (MarshalIndent : List Server → Except GoString GoString)
    (servers : Servers) : GoString :=
  match MarshalIndent servers.toList with
  | .error err => err ++ ['\n']
  | .ok serversJSON => serversJSON ++ ['\n']

/-- The text of a tag sequence under the verb `%s` of `fmt`: the tags separated by one space,
in square brackets. -/
def formatTags (tags : Tags) : GoString :=
  ['['] ++ [' '].intercalate tags ++ [']']

/-- Go `columnarOutput`: one `fmt.Printf("%s %s %s\n", ...)` for each record. -/
def columnarOutput (servers : Servers) : GoString :=
  servers.toList.foldl
    (fun out server =>
      out ++ (server.Environment ++ [' '] ++ server.Name ++ [' '] ++ formatTags server.Tags
        ++ ['\n']))
    []

/-- Go `formatList`. -/
def formatList (MarshalIndent : List Server → Except GoString GoString)
    (servers : Servers) (format : GoString) : GoString :=
  if format = ['n', 'a', 'm', 'e', 's'] then listNamesOutput servers
  else if format = ['j', 's', 'o', 'n'] then printJSONOutput MarshalIndent servers
  else columnarOutput servers

/-! ## Loading and the action of the command -/

/-- How a piece of the program ends: it returns a value, or it stops the process with
`os.Exit(code)`. -/
inductive Flow (α : Type) where
  | returns (value : α)
  | exits (code : Nat)
deriving DecidableEq, Repr

/-- The nil slice, the value of `var servers []Server`. -/
def nilServers : Servers := ⟨[], 0⟩

/-- Go `getServers`; the value is the text written to standard output and how the function
ends.  `ReadFile` stands for `ioutil.ReadFile`, which gives the content of the file or the
message of the error, and `Unmarshal raw v` for `json.Unmarshal(raw, &v)`, which gives the new
value of the variable `v` and the error it returns, if any; that error is not looked at. -/
def getServers (ReadFile : GoString → Except GoString GoString)
    (Unmarshal : GoString → Servers → Servers × Option GoString)
    (configFile : GoString) : GoString × Flow Servers :=
  match ReadFile configFile with
  | .error err => (err ++ ['\n'], Flow.exits 1)
  | .ok raw => ([], Flow.returns (Unmarshal raw nilServers).1)

/-- The function that `main` installs as `app.Action`, on the values of the flags; the value
is the text written to standard output and the exit code of the process (0 when the action
returns `nil`). -/
def Action (ReadFile : GoString → Except GoString GoString)
    (Unmarshal : GoString → Servers → Servers × Option GoString)
    (MarshalIndent : List Server → Except GoString GoString)
    (configFile environment : GoString) (tags : Option (List GoString))
    (format : GoString) : GoString × Nat :=
  match getServers ReadFile Unmarshal configFile with
  | (out, Flow.exits code) => (out, code)
  | (out, Flow.returns servers) =>
    let servers := filterServers servers environment tags
    (out ++ formatList MarshalIndent servers format ++ ['\n'], 0)

/-! ## The specification's vocabulary -/

/-- The predicate of a sub-token in the words of the specification: a sub-token `"!" + u`
holds for a record when `u` is not among its tags, every other sub-token `s` holds when `s` is
among its tags. -/
def subTokenHolds (s : GoString) (record : Server) : Bool :=
  match s with
  | c :: u => if c = '!' then decide (u ∉ record.Tags) else decide (s ∈ record.Tags)
  | [] => decide (s ∈ record.Tags)

/-- The conjunction of the predicates of all comma-separated sub-tokens of all tokens. -/
def allTagsHold (tokens : List GoString) (record : Server) : Bool :=
  tokens.all fun token => (Split token).all fun s => subTokenHolds s record

/-- One line of the default rendering in the words of the specification: the environment, a
space, the name, a space, the tags joined by single spaces in square brackets, a newline. -/
def columnarLine (record : Server) : GoString :=
  record.Environment ++ [' '] ++ record.Name ++ [' ']
    ++ (['['] ++ [' '].intercalate record.Tags ++ [']']) ++ ['\n']

/-- The filter in the words of the specification: a new sequence is constructed, to which the
records that satisfy the predicate are added in order. -/
def freshFilter (keep : Server → Bool) (records : List Server) : List Server :=
  records.foldl (fun fresh record => if keep record then fresh ++ [record] else fresh) []

/-- The scenario of the specification: `[{a, prod, [x, y]}, {b, dev, [x]}]`. -/
def scenarioA : Server := ⟨['a'], ['p', 'r', 'o', 'd'], [['x'], ['y']]⟩

/-- The second record of the scenario. -/
def scenarioB : Server := ⟨['b'], ['d', 'e', 'v'], [['x']]⟩

/-- The scenario as a slice. -/
def scenario : Servers := ⟨[scenarioA, scenarioB], 2⟩

/-- Two records named `web1` and `web2`. -/
def webServers : Servers :=
  ⟨[⟨['w', 'e', 'b', '1'], ['p', 'r', 'o', 'd'], []⟩,
    ⟨['w', 'e', 'b', '2'], ['d', 'e', 'v'], [['x']]⟩], 2⟩

/-! ## The loop invariant -/

/-- The invariant of the filter loop before the iteration at read index `k`: no array has been
allocated, the write index is at most the read index, the cells from `k` on are untouched and
the cells below the write index hold the kept records of the first `k`. -/
structure LoopInv (keep : Server → Bool) (store : List Server) (k : Nat) (f : Filtered) :
    Prop where
  shared : f.own = none
  write_le_read : f.len ≤ k
  length_eq : f.src.length = store.length
  unread : f.src.drop k = store.drop k
  written : f.src.take f.len = (store.take k).filter keep

/-! ## The filter loop computes a stable filter -/

theorem take_succ_set {α : Type} (l : List α) (n : Nat) (a : α) (h : n < l.length) :
    (l.set n a).take (n + 1) = l.take n ++ [a] := by
  induction l generalizing n with
  | nil => simp at h
  | cons x xs ih =>
    cases n with
    | zero => simp
    | succ m =>
      have hm : m < xs.length := by simpa using h
      simp [ih m hm]

theorem loopInv_init (keep : Server → Bool) (store : List Server) :
    LoopInv keep store 0 ⟨store, none, 0⟩ :=
  ⟨rfl, Nat.le_refl 0, rfl, rfl, by simp⟩

theorem loopInv_step (keep : Server → Bool) (store : List Server) (k : Nat) (f : Filtered)
    (hk : k < store.length) (inv : LoopInv keep store k f) :
    LoopInv keep store (k + 1) (filterStep keep f k) := by
  obtain ⟨hown, hle, hlen, hdrop, htake⟩ := inv
  have hk2 : k < f.src.length := by omega
  have hread : f.src[k]? = some store[k] := by
    have h1 : (f.src.drop k)[0]? = (store.drop k)[0]? := by rw [hdrop]
    simpa [List.getElem?_drop, List.getElem?_eq_getElem hk] using h1
  have htk : store.take (k + 1) = store.take k ++ [store[k]] := by
    rw [List.take_succ, List.getElem?_eq_getElem hk]; rfl
  have hdrop2 : f.src.drop (k + 1) = store.drop (k + 1) := by
    have := congrArg (List.drop 1) hdrop
    simpa [List.drop_drop, Nat.add_comm] using this
  unfold filterStep
  rw [hread]
  by_cases hkeep : keep store[k] = true
  · have hlt : f.len < f.src.length := by omega
    simp only [hkeep, if_true, Filtered.append, hown, hlt]
    refine ⟨rfl, Nat.succ_le_succ hle, by simpa using hlen, ?_, ?_⟩
    · show (f.src.set f.len store[k]).drop (k + 1) = _
      rw [List.drop_set_of_lt _ _ (by omega)]
      exact hdrop2
    · show (f.src.set f.len store[k]).take (f.len + 1) = _
      rw [htk, List.filter_append, ← htake, take_succ_set _ _ _ hlt]
      simp [hkeep]
  · simp only [hkeep, Bool.false_eq_true, if_false]
    refine ⟨hown, by omega, hlen, hdrop2, ?_⟩
    rw [htk, List.filter_append, htake]
    simp [hkeep]

theorem loopInv_run (keep : Server → Bool) (store : List Server) (k : Nat)
    (hk : k ≤ store.length) :
    LoopInv keep store k ((List.range k).foldl (filterStep keep) ⟨store, none, 0⟩) := by
  induction k with
  | zero => exact loopInv_init keep store
  | succ j ih =>
    rw [List.range_succ, List.foldl_append]
    exact loopInv_step keep store j _ hk (ih (by omega))

theorem filterLoop_toList (keep : Server → Bool) (servers : Servers) (h : servers.WF) :
    (filterLoop keep servers).toList = servers.toList.filter keep := by
  have inv := loopInv_run keep servers.store servers.len h
  unfold filterLoop Filtered.toServers Servers.toList
  simp only [inv.shared, Option.getD_none]
  exact inv.written

theorem filterLoop_WF (keep : Server → Bool) (servers : Servers) (h : servers.WF) :
    (filterLoop keep servers).WF := by
  have inv := loopInv_run keep servers.store servers.len h
  unfold filterLoop Filtered.toServers Servers.WF
  simp only [inv.shared, Option.getD_none]
  have h1 := inv.write_le_read
  have h2 := inv.length_eq
  have h3 : servers.len ≤ servers.store.length := h
  omega

/-! ## The filters as predicates on records -/

theorem contains_eq_decide_mem (tags : List GoString) (t : GoString) :
    contains tags t = decide (t ∈ tags) := by
  induction tags with
  | nil => simp [contains]
  | cons x xs ih =>
    by_cases h : x = t
    · simp [contains, h]
    · have h2 : ¬ t = x := fun e => h e.symm
      simp [contains, h, h2, ih]

theorem hasPrefix_bang_cons (c : Char) (u : GoString) :
    HasPrefix (c :: u) ['!'] = decide (c = '!') := by
  simp [HasPrefix]

theorem hasPrefix_bang_nil : HasPrefix [] ['!'] = false := by
  simp [HasPrefix]

theorem tagKeeps_eq_subTokenHolds (s : GoString) (r : Server) :
    tagKeeps s r = subTokenHolds s r := by
  cases s with
  | nil => simp [tagKeeps, subTokenHolds, hasPrefix_bang_nil, contains_eq_decide_mem]
  | cons c u =>
    by_cases h : c = '!'
    · subst h
      simp [tagKeeps, subTokenHolds, TrimPrefix, hasPrefix_bang_cons, contains_eq_decide_mem]
    · simp [tagKeeps, subTokenHolds, hasPrefix_bang_cons, contains_eq_decide_mem, h]

theorem Split_ne_nil (s : GoString) : Split s ≠ [] := by
  cases s with
  | nil => simp [Split]
  | cons c s =>
    unfold Split
    split
    · simp
    · split <;> simp

theorem Split_of_no_comma (s : GoString) (h : ',' ∉ s) : Split s = [s] := by
  induction s with
  | nil => rfl
  | cons c s ih =>
    have hc : c ≠ ',' := fun e => h (by simp [e])
    have hs : ',' ∉ s := fun e => h (by simp [e])
    simp [Split, hc, ih hs]

theorem Split_append_comma (a b : GoString) :
    Split (a ++ ',' :: b) = Split a ++ Split b := by
  induction a with
  | nil => simp [Split]
  | cons c a ih =>
    by_cases hc : c = ','
    · simp [Split, hc, ih]
    · have hne := Split_ne_nil a
      cases hsa : Split a with
      | nil => exact absurd hsa hne
      | cons p ps => simp [Split, hc, ih, hsa]

theorem filterByTag_toList (servers : Servers) (tag : GoString) (h : servers.WF) :
    (filterByTag servers tag).toList = servers.toList.filter (subTokenHolds tag) := by
  unfold filterByTag
  rw [filterLoop_toList _ _ h]
  congr 1
  funext r
  exact tagKeeps_eq_subTokenHolds tag r

theorem filterByTag_WF (servers : Servers) (tag : GoString) (h : servers.WF) :
    (filterByTag servers tag).WF :=
  filterLoop_WF _ _ h

theorem filterByEnvironment_toList (servers : Servers) (environment : GoString)
    (h : servers.WF) :
    (filterByEnvironment servers environment).toList
      = servers.toList.filter (fun r => decide (r.Environment = environment)) :=
  filterLoop_toList _ _ h

theorem filterByEnvironment_WF (servers : Servers) (environment : GoString) (h : servers.WF) :
    (filterByEnvironment servers environment).WF :=
  filterLoop_WF _ _ h

/-- The tag passes of `filterServers`, one `filterByTag` for each sub-token in textual order. -/
theorem tagPasses_eq (servers : Servers) (tags : List GoString) :
    tags.foldl
        (fun servers tag =>
          (Split tag).foldl (fun servers splitTag => filterByTag servers splitTag) servers)
        servers
      = (tags.flatMap Split).foldl filterByTag servers := by
  induction tags generalizing servers with
  | nil => rfl
  | cons t ts ih => simp [List.foldl_append, ih]

theorem foldl_filterByTag (subs : List GoString) (servers : Servers) (h : servers.WF) :
    (subs.foldl filterByTag servers).WF ∧
      (subs.foldl filterByTag servers).toList
        = servers.toList.filter (fun r => subs.all fun s => subTokenHolds s r) := by
  induction subs generalizing servers with
  | nil => simp [h]
  | cons s ss ih =>
    obtain ⟨h1, h2⟩ := ih (filterByTag servers s) (filterByTag_WF _ _ h)
    refine ⟨h1, ?_⟩
    simp only [List.foldl_cons, h2, filterByTag_toList _ _ h, List.filter_filter, List.all_cons]
    congr 1
    funext r
    exact Bool.and_comm _ _

theorem all_bind_Split (tokens : List GoString) (r : Server) :
    ((tokens.flatMap Split).all fun s => subTokenHolds s r) = allTagsHold tokens r := by
  induction tokens with
  | nil => rfl
  | cons t ts ih =>
    simp only [allTagsHold] at ih
    simp [allTagsHold, List.all_append, ih]

theorem filterServers_unfold (servers : Servers) (environment : GoString)
    (tags : Option (List GoString)) :
    filterServers servers environment tags
      = ((tags.getD []).flatMap Split).foldl filterByTag
          (if environment ≠ [] then filterByEnvironment servers environment else servers) := by
  cases tags with
  | none => simp [filterServers]
  | some ts =>
    cases ts with
    | nil => simp [filterServers]
    | cons t ts =>
      simp only [filterServers, Option.getD_some]
      rw [if_pos (by simp), tagPasses_eq]

theorem filterServers_toList (servers : Servers) (h : servers.WF) (environment : GoString)
    (tags : Option (List GoString)) :
    (filterServers servers environment tags).WF ∧
      (filterServers servers environment tags).toList
        = servers.toList.filter (fun r =>
            (decide (environment = []) || decide (r.Environment = environment))
              && allTagsHold (tags.getD []) r) := by
  rw [filterServers_unfold]
  by_cases hE : environment = []
  · obtain ⟨h1, h2⟩ := foldl_filterByTag ((tags.getD []).flatMap Split) servers h
    simp only [hE, ne_eq, not_true_eq_false, if_false] at h1 h2 ⊢
    refine ⟨h1, ?_⟩
    rw [h2]
    congr 1
    funext r
    rw [all_bind_Split]
    simp
  · obtain ⟨h1, h2⟩ := foldl_filterByTag ((tags.getD []).flatMap Split)
      (filterByEnvironment servers environment) (filterByEnvironment_WF _ _ h)
    simp only [hE, ne_eq, not_false_eq_true, if_true] at h1 h2 ⊢
    refine ⟨h1, ?_⟩
    rw [h2, filterByEnvironment_toList _ _ h, List.filter_filter]
    congr 1
    funext r
    rw [all_bind_Split]
    simp [hE, Bool.and_comm]

theorem foldl_filter_all {α β : Type} (p : β → α → Bool) (bs : List β) (l : List α) :
    bs.foldl (fun acc b => acc.filter (p b)) l = l.filter (fun a => bs.all fun b => p b a) := by
  induction bs generalizing l with
  | nil => simp
  | cons b bs ih =>
    simp only [List.foldl_cons, ih, List.filter_filter, List.all_cons]
    congr 1
    funext a
    exact Bool.and_comm _ _

theorem subTokenHolds_plain (t : GoString) (h : t.head? ≠ some '!') (r : Server) :
    subTokenHolds t r = decide (t ∈ r.Tags) := by
  cases t with
  | nil => rfl
  | cons c u =>
    have hc : c ≠ '!' := fun e => h (by simp [e])
    simp [subTokenHolds, hc]

theorem subTokenHolds_negated (u : GoString) (r : Server) :
    subTokenHolds ('!' :: u) r = !decide (u ∈ r.Tags) := by
  simp [subTokenHolds]

theorem allTagsHold_single (t : GoString) (h : ',' ∉ t) (r : Server) :
    allTagsHold [t] r = subTokenHolds t r := by
  simp [allTagsHold, Split_of_no_comma t h]

theorem filterServers_tags_toList (C : Servers) (hC : C.WF) (T : Option (List GoString)) :
    (filterServers C [] T).toList = C.toList.filter (allTagsHold (T.getD [])) := by
  rw [(filterServers_toList C hC [] T).2]
  congr 1

/-! ## The rendering of names -/

theorem intercalate_cons_cons (sep x y : GoString) (l : List GoString) :
    sep.intercalate (x :: y :: l) = x ++ sep ++ sep.intercalate (y :: l) := by
  simp [List.intercalate, List.intersperse]

theorem namesLoop_eq (n : Nat) (records : List Server) (k : Nat) (acc : GoString)
    (hn : k + records.length = n) :
    (records.enumFrom k).foldl
        (fun (buffer : GoString) (entry : Nat × Server) =>
          let buffer := buffer ++ entry.2.Name
          if (entry.1 : Int) < (n : Int) - 1 then buffer ++ [','] else buffer)
        acc
      = acc ++ [','].intercalate (records.map (·.Name)) := by
  induction records generalizing k acc with
  | nil => simp [List.intercalate]
  | cons r rs ih =>
    cases rs with
    | nil =>
      have hlast : ¬ ((k : Int) < (n : Int) - 1) := by
        simp only [List.length_singleton] at hn
        omega
      simp [List.enumFrom, hlast, List.intercalate]
    | cons r2 rs2 =>
      have hmore : (k : Int) < (n : Int) - 1 := by
        simp only [List.length_cons] at hn
        omega
      have := ih (k + 1) (acc ++ r.Name ++ [',']) (by simp only [List.length_cons] at hn ⊢; omega)
      simp only [List.enumFrom_cons, List.foldl_cons, hmore, if_true] at this ⊢
      rw [this]
      simp only [List.map_cons, intercalate_cons_cons, List.append_assoc]

theorem listNamesOutput_intercalate (S : Servers) (hS : S.WF) :
    listNamesOutput S = [','].intercalate (S.toList.map (·.Name)) ++ ['\n'] := by
  have hlen : 0 + S.toList.length = S.len := by
    have : S.len ≤ S.store.length := hS
    simp [Servers.toList, List.length_take, this]
  unfold listNamesOutput
  simp only [List.enum]
  rw [namesLoop_eq S.len S.toList 0 [] hlen]
  simp

theorem columnarOutput_eq (S : Servers) : columnarOutput S = S.toList.flatMap columnarLine := by
  have h : ∀ (l : List Server) (acc : GoString),
      l.foldl (fun out server =>
          out ++ (server.Environment ++ [' '] ++ server.Name ++ [' ']
            ++ formatTags server.Tags ++ ['\n'])) acc
        = acc ++ l.flatMap columnarLine := by
    intro l
    induction l with
    | nil => simp
    | cons r rs ih =>
      intro acc
      rw [List.foldl_cons, ih]
      simp [columnarLine, formatTags, List.append_assoc]
  unfold columnarOutput
  rw [h]
  simp

theorem filterLoop_nil (keep : Server → Bool) : filterLoop keep nilServers = nilServers := rfl

theorem filterServers_nil (environment : GoString) (tags : Option (List GoString)) :
    filterServers nilServers environment tags = nilServers := by
  have hpass : ∀ subs : List GoString, subs.foldl filterByTag nilServers = nilServers := by
    intro subs
    induction subs with
    | nil => rfl
    | cons s ss ih =>
      rw [List.foldl_cons]
      exact ih
  rw [filterServers_unfold]
  by_cases hE : environment = []
  · simp only [hE, ne_eq, not_true_eq_false, if_false]
    exact hpass _
  · simp only [hE, ne_eq, not_false_eq_true, if_true]
    exact hpass _

theorem freshFilter_eq_filter (keep : Server → Bool) (records : List Server) :
    freshFilter keep records = records.filter keep := by
  have h : ∀ (l acc : List Server),
      l.foldl (fun fresh record => if keep record then fresh ++ [record] else fresh) acc
        = acc ++ l.filter keep := by
    intro l
    induction l with
    | nil => simp
    | cons r rs ih =>
      intro acc
      rw [List.foldl_cons, ih]
      by_cases hk : keep r = true
      · simp [hk]
      · simp [hk]
  unfold freshFilter
  rw [h]
  simp

theorem allTagsHold_perm (T T2 : List GoString) (h : T.Perm T2) (r : Server) :
    allTagsHold T r = allTagsHold T2 r := by
  unfold allTagsHold
  rw [List.all_eq, List.all_eq]
  simp only [h.mem_iff]

theorem set_getElem_same {α : Type} (l : List α) (k : Nat) (h : k < l.length) :
    l.set k l[k] = l := by
  induction l generalizing k with
  | nil => simp at h
  | cons x xs ih =>
    cases k with
    | zero => simp
    | succ m =>
      have hm : m < xs.length := by simpa using h
      simp [ih m hm]

theorem filterLoop_of_all (keep : Server → Bool) (S : Servers) (hS : S.WF)
    (hall : ∀ r, r ∈ S.toList → keep r = true) : filterLoop keep S = S := by
  have hS2 : S.len ≤ S.store.length := hS
  have hrun : ∀ k, k ≤ S.len →
      (List.range k).foldl (filterStep keep) ⟨S.store, none, 0⟩ = ⟨S.store, none, k⟩ := by
    intro k
    induction k with
    | zero => intro _; rfl
    | succ j ih =>
      intro hj
      have hjl : j < S.store.length := by omega
      rw [List.range_succ, List.foldl_append, ih (by omega)]
      have hmem : S.store[j] ∈ S.toList := by
        have hj2 : j < (S.store.take S.len).length := by
          rw [List.length_take]; omega
        have : (S.store.take S.len)[j] = S.store[j] := by simp
        rw [← this]
        exact List.getElem_mem hj2
      simp [filterStep, List.getElem?_eq_getElem hjl, hall _ hmem, Filtered.append, hjl,
        set_getElem_same]
  unfold filterLoop
  rw [hrun S.len (Nat.le_refl _)]
  rfl

theorem foldl_filterByTag_of_all (subs : List GoString) (S : Servers) (hS : S.WF)
    (hall : ∀ s, s ∈ subs → ∀ r, r ∈ S.toList → subTokenHolds s r = true) :
    subs.foldl filterByTag S = S := by
  induction subs with
  | nil => rfl
  | cons s ss ih =>
    have h1 : filterByTag S s = S := by
      unfold filterByTag
      apply filterLoop_of_all _ S hS
      intro r hr
      rw [tagKeeps_eq_subTokenHolds]
      exact hall s (List.mem_cons_self _ _) r hr
    rw [List.foldl_cons, h1]
    exact ih (fun s2 hs2 => hall s2 (List.mem_cons_of_mem _ hs2))

theorem filterServers_fixed (S : Servers) (hS : S.WF) (E : GoString)
    (T : Option (List GoString))
    (hall : ∀ r, r ∈ S.toList →
      (decide (E = []) || decide (r.Environment = E)) = true ∧ allTagsHold (T.getD []) r = true) :
    filterServers S E T = S := by
  rw [filterServers_unfold]
  have henv : (if E ≠ [] then filterByEnvironment S E else S) = S := by
    by_cases hE : E = []
    · simp [hE]
    · simp only [ne_eq, hE, not_false_eq_true, if_true]
      unfold filterByEnvironment
      apply filterLoop_of_all _ S hS
      intro r hr
      have := (hall r hr).1
      simpa [hE] using this
  rw [henv]
  apply foldl_filterByTag_of_all _ S hS
  intro s hs r hr
  have h2 := (hall r hr).2
  rw [← all_bind_Split, List.all_eq_true] at h2
  exact h2 s hs

theorem Split_trailing_comma (a : GoString) : Split (a ++ [',']) = Split a ++ [[]] := by
  rw [Split_append_comma]
  rfl

theorem Split_leading_comma (a : GoString) : Split (',' :: a) = [] :: Split a := by
  simp [Split]

theorem Split_doubled_comma (a b : GoString) :
    Split (a ++ [',', ','] ++ b) = Split a ++ [] :: Split b := by
  have h : a ++ [',', ','] ++ b = a ++ ',' :: (',' :: b) := by simp
  rw [h, Split_append_comma, Split_leading_comma]

theorem filter_emptyTag (C : Servers) (hC : C.WF) (T1 T2 : List GoString)
    (h : ∀ r, allTagsHold T1 r = (allTagsHold T2 r && decide (([] : GoString) ∈ r.Tags))) :
    (filterServers C [] (some T1)).toList
      = (filterServers C [] (some T2)).toList.filter
          (fun r => decide (([] : GoString) ∈ r.Tags)) := by
  rw [filterServers_tags_toList C hC, filterServers_tags_toList C hC, List.filter_filter]
  congr 1
  funext r
  simp only [Option.getD_some]
  rw [h r, Bool.and_comm]

/-! ## The claims -/

/-- C1: for a well-formed slice `C`, a non-empty environment `E` and a token list `T` (nil or
not), `filterServers C E T` holds exactly the records of `C`, in their order, that have
environment `E` and satisfy the predicate of every comma-separated sub-token of every token;
and filtering by the environment first and then by each sub-token in turn, one pass at a time,
gives the same list as that single conjunctive filter. -/
theorem filterServers_conjunction (C : Servers) (hC : C.WF) (E : GoString) (hE : E ≠ [])
    (T : Option (List GoString)) :
    (filterServers C E T).toList
        = C.toList.filter (fun r => decide (r.Environment = E) && allTagsHold (T.getD []) r)
      ∧ ((T.getD []).flatMap Split).foldl (fun acc s => acc.filter (subTokenHolds s))
            (C.toList.filter (fun r => decide (r.Environment = E)))
          = C.toList.filter (fun r => decide (r.Environment = E) && allTagsHold (T.getD []) r) := by
  constructor
  · rw [(filterServers_toList C hC E T).2]
    congr 1
    funext r
    simp [hE]
  · rw [foldl_filter_all, List.filter_filter]
    congr 1
    funext r
    rw [all_bind_Split]
    simp [Bool.and_comm]

/-- The scenario with environment `prod` and the tokens `x,!z` and `y`: only record `a` has
environment `prod`, tags `x` and `y` and no tag `z`. -/
theorem filterServers_conjunction_witness :
    scenario.WF ∧ (['p', 'r', 'o', 'd'] : GoString) ≠ [] ∧
      (filterServers scenario ['p', 'r', 'o', 'd'] (some [['x', ',', '!', 'z'], ['y']])).toList
        = [scenarioA] :=
  ⟨by decide, by decide,
    ((filterServers_conjunction scenario (by decide) ['p', 'r', 'o', 'd'] (by decide)
      (some [['x', ',', '!', 'z'], ['y']])).1).trans (by decide)⟩

/-- C2: for a well-formed slice `C` and a non-empty environment `E`, `filterServers` with an
empty tag list, and likewise with a nil tag list, gives exactly the records of `C` whose
environment is equal to `E` as a string, each as often as in `C` and in the order of `C`. -/
theorem filterServers_environment_only (C : Servers) (hC : C.WF) (E : GoString) (hE : E ≠ []) :
    (filterServers C E (some [])).toList
        = C.toList.filter (fun r => decide (r.Environment = E))
      ∧ (filterServers C E none).toList
        = C.toList.filter (fun r => decide (r.Environment = E)) := by
  constructor
  · rw [(filterServers_toList C hC E (some [])).2]
    congr 1
    funext r
    simp [hE, allTagsHold]
  · rw [(filterServers_toList C hC E none).2]
    congr 1
    funext r
    simp [hE, allTagsHold]

/-- The scenario with environment `prod` and no tags gives `[{a, prod, [x, y]}]`. -/
theorem filterServers_environment_only_witness :
    scenario.WF ∧ (['p', 'r', 'o', 'd'] : GoString) ≠ [] ∧
      (filterServers scenario ['p', 'r', 'o', 'd'] (some [])).toList = [scenarioA] ∧
      (filterServers scenario ['p', 'r', 'o', 'd'] none).toList = [scenarioA] :=
  ⟨by decide, by decide,
    ((filterServers_environment_only scenario (by decide) ['p', 'r', 'o', 'd']
      (by decide)).1).trans (by decide),
    ((filterServers_environment_only scenario (by decide) ['p', 'r', 'o', 'd']
      (by decide)).2).trans (by decide)⟩

/-- C3 as stated fails: on the scenario the token `x,y` keeps record `a`, which has no tag
`x,y`, and the token `!y` keeps record `b`, which has no tag `!y`. -/
theorem filterServers_tag_counterexample :
    scenario.WF ∧
      ((filterServers scenario [] (some [['x', ',', 'y']])).toList = [scenarioA] ∧
        scenario.toList.filter (fun r => decide (['x', ',', 'y'] ∈ r.Tags)) = [] ∧
        (filterServers scenario [] (some [['x', ',', 'y']])).toList
          ≠ scenario.toList.filter (fun r => decide (['x', ',', 'y'] ∈ r.Tags))) ∧
      ((filterServers scenario [] (some [['!', 'y']])).toList = [scenarioB] ∧
        scenario.toList.filter (fun r => decide (['!', 'y'] ∈ r.Tags)) = [] ∧
        (filterServers scenario [] (some [['!', 'y']])).toList
          ≠ scenario.toList.filter (fun r => decide (['!', 'y'] ∈ r.Tags))) := by
  decide

/-- C3, amended: for a well-formed slice `C` and a token `t` that contains no comma and does
not start with `!`, `filterServers C "" [t]` holds exactly the records of `C` whose tag
sequence contains `t`, in the order of `C`. -/
theorem filterServers_plain_tag (C : Servers) (hC : C.WF) (t : GoString) (hcomma : ',' ∉ t)
    (hbang : t.head? ≠ some '!') :
    (filterServers C [] (some [t])).toList = C.toList.filter (fun r => decide (t ∈ r.Tags)) := by
  rw [filterServers_tags_toList C hC]
  congr 1
  funext r
  simp only [Option.getD_some]
  rw [allTagsHold_single t hcomma, subTokenHolds_plain t hbang]

/-- The scenario with the token `y` gives record `a`. -/
theorem filterServers_plain_tag_witness :
    scenario.WF ∧ ',' ∉ (['y'] : GoString) ∧ (['y'] : GoString).head? ≠ some '!' ∧
      (filterServers scenario [] (some [['y']])).toList = [scenarioA] :=
  ⟨by decide, by decide, by decide,
    (filterServers_plain_tag scenario (by decide) ['y'] (by decide) (by decide)).trans
      (by decide)⟩

/-- C4 as stated fails: on the scenario with `t = "y,x"` the token `!y,x` keeps only record
`b` (no tag `y`, and a tag `x`), while neither record has the tag `y,x`. -/
theorem filterServers_negated_tag_counterexample :
    scenario.WF ∧
      (filterServers scenario [] (some ['!' :: ['y', ',', 'x']])).toList = [scenarioB] ∧
      scenario.toList.filter (fun r => !decide (['y', ',', 'x'] ∈ r.Tags))
        = [scenarioA, scenarioB] ∧
      (filterServers scenario [] (some ['!' :: ['y', ',', 'x']])).toList
        ≠ scenario.toList.filter (fun r => !decide (['y', ',', 'x'] ∈ r.Tags)) := by
  decide

/-- C4, amended: for a well-formed slice `C` and a string `t` that contains no comma,
`filterServers C "" ["!" + t]` holds exactly the records of `C` whose tag sequence does not
contain `t`, in the order of `C`. -/
theorem filterServers_negated_tag (C : Servers) (hC : C.WF) (t : GoString) (hcomma : ',' ∉ t) :
    (filterServers C [] (some ['!' :: t])).toList
      = C.toList.filter (fun r => !decide (t ∈ r.Tags)) := by
  rw [filterServers_tags_toList C hC]
  congr 1
  funext r
  simp only [Option.getD_some]
  have h : ',' ∉ '!' :: t := by
    intro hm
    rcases List.mem_cons.1 hm with e | e
    · exact absurd e (by decide)
    · exact hcomma e
  rw [allTagsHold_single _ h, subTokenHolds_negated]

/-- The scenario with the token `!x` and no environment filter gives the empty collection. -/
theorem filterServers_negated_tag_witness :
    scenario.WF ∧ ',' ∉ (['x'] : GoString) ∧
      (filterServers scenario [] (some ['!' :: ['x']])).toList = [] :=
  ⟨by decide, by decide,
    (filterServers_negated_tag scenario (by decide) ['x'] (by decide)).trans (by decide)⟩

/-- C5 as stated fails: on the scenario with `t = "x,y"` record `b` is kept neither by `x,y`
nor by `!x,y`; and on a single record without tags, with `t = "!x"`, the record is kept both
by `!x` and by `!!x`. -/
theorem filterServers_partition_counterexample :
    (scenario.WF ∧ scenarioB ∈ scenario.toList ∧
      scenarioB ∉ (filterServers scenario [] (some [['x', ',', 'y']])).toList ∧
      scenarioB ∉ (filterServers scenario [] (some ['!' :: ['x', ',', 'y']])).toList) ∧
    ((⟨[⟨['c'], ['q', 'a'], []⟩], 1⟩ : Servers).WF ∧
      (⟨['c'], ['q', 'a'], []⟩ : Server)
        ∈ (filterServers ⟨[⟨['c'], ['q', 'a'], []⟩], 1⟩ [] (some [['!', 'x']])).toList ∧
      (⟨['c'], ['q', 'a'], []⟩ : Server)
        ∈ (filterServers ⟨[⟨['c'], ['q', 'a'], []⟩], 1⟩ [] (some ['!' :: ['!', 'x']])).toList) := by
  decide

/-- C5, amended: for a well-formed slice `C` and a token `t` that contains no comma and does
not start with `!`, the results for `t` and for `"!" + t` partition `C`: they are the records
at the positions of `C` where the tag sequence contains `t`, and the records at the other
positions; no record is in both, every record of `C` is in one of them, and together they
hold the records of `C` with their multiplicities. -/
theorem filterServers_partition (C : Servers) (hC : C.WF) (t : GoString) (hcomma : ',' ∉ t)
    (hbang : t.head? ≠ some '!') :
    ((filterServers C [] (some [t])).toList = C.toList.filter (fun r => decide (t ∈ r.Tags)) ∧
      (filterServers C [] (some ['!' :: t])).toList
        = C.toList.filter (fun r => !decide (t ∈ r.Tags))) ∧
    (∀ r, r ∈ (filterServers C [] (some [t])).toList →
      r ∉ (filterServers C [] (some ['!' :: t])).toList) ∧
    (∀ r, r ∈ C.toList → r ∈ (filterServers C [] (some [t])).toList ∨
      r ∈ (filterServers C [] (some ['!' :: t])).toList) ∧
    ((filterServers C [] (some [t])).toList
      ++ (filterServers C [] (some ['!' :: t])).toList).Perm C.toList := by
  have h1 : (filterServers C [] (some [t])).toList
      = C.toList.filter (fun r => decide (t ∈ r.Tags)) := by
    rw [filterServers_tags_toList C hC]
    congr 1
    funext r
    simp only [Option.getD_some]
    rw [allTagsHold_single t hcomma, subTokenHolds_plain t hbang]
  have hc : ',' ∉ '!' :: t := by
    intro hm
    rcases List.mem_cons.1 hm with e | e
    · exact absurd e (by decide)
    · exact hcomma e
  have h2 : (filterServers C [] (some ['!' :: t])).toList
      = C.toList.filter (fun r => !decide (t ∈ r.Tags)) := by
    rw [filterServers_tags_toList C hC]
    congr 1
    funext r
    simp only [Option.getD_some]
    rw [allTagsHold_single _ hc, subTokenHolds_negated]
  refine ⟨⟨h1, h2⟩, ?_, ?_, ?_⟩
  · intro r hr
    rw [h1] at hr
    rw [h2]
    simp only [List.mem_filter, decide_eq_true_eq] at hr
    simp [hr.2]
  · intro r hr
    rw [h1, h2]
    by_cases hm : t ∈ r.Tags
    · exact Or.inl (by simp [List.mem_filter, hr, hm])
    · exact Or.inr (by simp [List.mem_filter, hr, hm])
  · rw [h1, h2]
    exact List.filter_append_perm _ _

/-- The scenario with `t = "y"`: record `a` is kept by `y`, record `b` by `!y`. -/
theorem filterServers_partition_witness :
    scenario.WF ∧ ',' ∉ (['y'] : GoString) ∧ (['y'] : GoString).head? ≠ some '!' ∧
      ((filterServers scenario [] (some [['y']])).toList
        ++ (filterServers scenario [] (some ['!' :: ['y']])).toList).Perm scenario.toList :=
  ⟨by decide, by decide, by decide,
    (filterServers_partition scenario (by decide) ['y'] (by decide) (by decide)).2.2.2⟩

/-- C6: for every slice `C`, environment `E` and strings `a` and `b` (with or without commas
or a leading `!`), the single token `a + "," + b` gives the same slice as the two tokens `a`
and `b`. -/
theorem filterServers_comma_joined (C : Servers) (E a b : GoString) :
    filterServers C E (some [a ++ ',' :: b]) = filterServers C E (some [a, b]) := by
  rw [filterServers_unfold, filterServers_unfold]
  simp [Split_append_comma]

/-- C7: for every slice `C` and tokens `a` and `b`, filtering by the two tokens is filtering
by `a` and then filtering the result by `b`. -/
theorem filterServers_two_tokens (C : Servers) (a b : GoString) :
    filterServers C [] (some [a, b])
      = filterServers (filterServers C [] (some [a])) [] (some [b]) := by
  simp [filterServers_unfold, List.foldl_append]

/-- C8: for a well-formed slice `C`, every environment `E` and every token list `T` (nil or
not), the records of `filterServers C E T` form a sublist of the records of `C`: each is a
record of `C`, unchanged, and they stand in the order of `C`. -/
theorem filterServers_sublist (C : Servers) (hC : C.WF) (E : GoString)
    (T : Option (List GoString)) :
    (filterServers C E T).toList.Sublist C.toList
      ∧ ∀ r, r ∈ (filterServers C E T).toList → r ∈ C.toList := by
  have h : (filterServers C E T).toList.Sublist C.toList := by
    rw [(filterServers_toList C hC E T).2]
    exact List.filter_sublist _
  exact ⟨h, fun r hr => h.subset hr⟩

/-- The scenario filtered by `dev` and `x` is a sublist of the scenario. -/
theorem filterServers_sublist_witness :
    scenario.WF ∧
      (filterServers scenario ['d', 'e', 'v'] (some [['x']])).toList.Sublist scenario.toList :=
  ⟨by decide, (filterServers_sublist scenario (by decide) ['d', 'e', 'v'] (some [['x']])).1⟩

/-- C9: with the empty environment, an empty tag list and a nil tag list return the slice as
it is; and for a well-formed slice `C` and every token list `T` the result is that of the tag
passes alone, the records of `C` that satisfy all sub-token predicates, whatever their
environment. -/
theorem filterServers_empty_environment (C : Servers) (hC : C.WF) (T : List GoString) :
    filterServers C [] (some []) = C ∧ filterServers C [] none = C ∧
      filterServers C [] (some T) = (T.flatMap Split).foldl filterByTag C ∧
      (filterServers C [] (some T)).toList = C.toList.filter (allTagsHold T) := by
  refine ⟨by simp [filterServers], by simp [filterServers], ?_, ?_⟩
  · simp [filterServers_unfold]
  · exact filterServers_tags_toList C hC (some T)

/-- Two records with tag `x`, one with the empty environment and one with `dev`: the empty
environment value with the token `x` keeps both. -/
theorem filterServers_empty_environment_witness :
    (⟨[⟨['a'], [], [['x']]⟩, scenarioB], 2⟩ : Servers).WF ∧
      (filterServers ⟨[⟨['a'], [], [['x']]⟩, scenarioB], 2⟩ [] (some [['x']])).toList
        = [⟨['a'], [], [['x']]⟩, scenarioB] :=
  ⟨by decide,
    ((filterServers_empty_environment ⟨[⟨['a'], [], [['x']]⟩, scenarioB], 2⟩ (by decide)
      [['x']]).2.2.2).trans (by decide)⟩

/-- C10: for a well-formed slice `S`, `listNamesOutput S` writes the names of the records of
`S`, in order, joined by single commas, followed by one newline, and `formatList` with the
format `names` writes the same; a collection of length zero gives the empty line and a
collection of the single record `r` gives the name of `r` and a newline, without a comma. -/
theorem listNamesOutput_eq (MarshalIndent : List Server → Except GoString GoString)
    (S : Servers) (hS : S.WF) :
    listNamesOutput S = [','].intercalate (S.toList.map (·.Name)) ++ ['\n']
      ∧ formatList MarshalIndent S ['n', 'a', 'm', 'e', 's'] = listNamesOutput S
      ∧ (∀ store, listNamesOutput ⟨store, 0⟩ = ['\n'])
      ∧ (∀ r store, listNamesOutput ⟨r :: store, 1⟩ = r.Name ++ ['\n']) := by
  refine ⟨listNamesOutput_intercalate S hS, by simp [formatList], ?_, ?_⟩
  · intro store
    rw [listNamesOutput_intercalate ⟨store, 0⟩ (Nat.zero_le _)]
    simp [Servers.toList, List.intercalate]
  · intro r store
    rw [listNamesOutput_intercalate ⟨r :: store, 1⟩ (Nat.succ_le_succ (Nat.zero_le _))]
    simp [Servers.toList, List.intercalate]

/-- The scenario filtered by the environment `prod`, the collection `[{a, prod, [x, y]}]`,
renders as `a` and a newline. -/
theorem listNamesOutput_eq_witness :
    (filterServers scenario ['p', 'r', 'o', 'd'] none).WF ∧
      (filterServers scenario ['p', 'r', 'o', 'd'] none).toList = [scenarioA] ∧
      listNamesOutput (filterServers scenario ['p', 'r', 'o', 'd'] none) = ['a', '\n'] :=
  ⟨by decide, by decide,
    ((listNamesOutput_eq (fun _ => .ok []) (filterServers scenario ['p', 'r', 'o', 'd'] none)
      (by decide)).1).trans (by decide)⟩

/-- C11 as stated fails: on two records named `web1` and `web2`, `formatList` with the format
`names` writes `web1,web2` and one newline, with no blank line after it. -/
theorem formatList_blank_line_counterexample :
    webServers.WF ∧ webServers.toList.map (·.Name) = [['w', 'e', 'b', '1'], ['w', 'e', 'b', '2']] ∧
      formatList (fun _ => Except.ok []) webServers ['n', 'a', 'm', 'e', 's']
        = ['w', 'e', 'b', '1', ',', 'w', 'e', 'b', '2', '\n'] ∧
      formatList (fun _ => Except.ok []) webServers ['n', 'a', 'm', 'e', 's']
        ≠ ['w', 'e', 'b', '1', ',', 'w', 'e', 'b', '2', '\n', '\n'] := by
  decide

/-- C11, amended: `formatList` writes the chosen rendering alone (`listNamesOutput` for
`names`, `printJSONOutput` for `json`, `columnarOutput` for any other selector), and when the
configuration file can be read the action writes, for every format selector, what
`formatList` writes for the filtered collection followed by one more newline, a blank line,
and ends with exit code 0; in particular, when the filtered records are named `web1` and
`web2`, `formatList` with the format `names` writes `web1,web2` and a newline, and the action
writes exactly `web1,web2`, a newline and a blank line. -/
theorem Action_output (ReadFile : GoString → Except GoString GoString)
    (Unmarshal : GoString → Servers → Servers × Option GoString)
    (MarshalIndent : List Server → Except GoString GoString)
    (configFile raw environment : GoString) (tags : Option (List GoString)) (format : GoString)
    (hread : ReadFile configFile = Except.ok raw) :
    Action ReadFile Unmarshal MarshalIndent configFile environment tags format
        = (formatList MarshalIndent
            (filterServers (Unmarshal raw nilServers).1 environment tags) format ++ ['\n'], 0)
      ∧ (∀ S, formatList MarshalIndent S ['n', 'a', 'm', 'e', 's'] = listNamesOutput S ∧
          formatList MarshalIndent S ['j', 's', 'o', 'n'] = printJSONOutput MarshalIndent S ∧
          (format ≠ ['n', 'a', 'm', 'e', 's'] → format ≠ ['j', 's', 'o', 'n'] →
            formatList MarshalIndent S format = columnarOutput S))
      ∧ ((filterServers (Unmarshal raw nilServers).1 environment tags).WF →
          (filterServers (Unmarshal raw nilServers).1 environment tags).toList.map (·.Name)
            = [['w', 'e', 'b', '1'], ['w', 'e', 'b', '2']] →
          formatList MarshalIndent (filterServers (Unmarshal raw nilServers).1 environment tags)
              ['n', 'a', 'm', 'e', 's']
            = ['w', 'e', 'b', '1', ',', 'w', 'e', 'b', '2', '\n'] ∧
          Action ReadFile Unmarshal MarshalIndent configFile environment tags
              ['n', 'a', 'm', 'e', 's']
            = (['w', 'e', 'b', '1', ',', 'w', 'e', 'b', '2', '\n', '\n'], 0)) := by
  have hact : ∀ f, Action ReadFile Unmarshal MarshalIndent configFile environment tags f
      = (formatList MarshalIndent
          (filterServers (Unmarshal raw nilServers).1 environment tags) f ++ ['\n'], 0) := by
    intro f
    simp [Action, getServers, hread]
  refine ⟨hact format, ?_, ?_⟩
  · intro S
    refine ⟨by simp [formatList], by simp [formatList], ?_⟩
    intro h1 h2
    simp [formatList, h1, h2]
  · intro hwf hnames
    have hfmt : formatList MarshalIndent
        (filterServers (Unmarshal raw nilServers).1 environment tags) ['n', 'a', 'm', 'e', 's']
          = ['w', 'e', 'b', '1', ',', 'w', 'e', 'b', '2', '\n'] := by
      simp only [formatList, if_true]
      rw [listNamesOutput_intercalate _ hwf, hnames]
      simp [List.intercalate]
    refine ⟨hfmt, ?_⟩
    rw [hact, hfmt]
    rfl

/-- A readable file that holds the two records `web1` and `web2`, no filters, format `names`. -/
theorem Action_output_witness :
    (fun _ => Except.ok []) ([] : GoString) = (Except.ok [] : Except GoString GoString) ∧
      Action (fun _ => Except.ok []) (fun _ _ => (webServers, none)) (fun _ => Except.ok [])
          [] [] none ['n', 'a', 'm', 'e', 's']
        = (['w', 'e', 'b', '1', ',', 'w', 'e', 'b', '2', '\n', '\n'], 0) :=
  ⟨rfl,
    ((Action_output (fun _ => Except.ok []) (fun _ _ => (webServers, none))
      (fun _ => Except.ok []) [] [] [] none ['n', 'a', 'm', 'e', 's'] rfl).2.2
      (by decide) (by decide)).2⟩

/-- C12: for every slice `S` and every format selector other than `names` and `json`,
`formatList` writes one line for each record of `S`, in order: the environment, a space, the
name, a space, the tags joined by single spaces in square brackets, a newline; a record
without tags gets `[]`, and a collection of length zero gives no output. -/
theorem formatList_columnar (MarshalIndent : List Server → Except GoString GoString)
    (S : Servers) (format : GoString) (hnames : format ≠ ['n', 'a', 'm', 'e', 's'])
    (hjson : format ≠ ['j', 's', 'o', 'n']) :
    formatList MarshalIndent S format = S.toList.flatMap columnarLine
      ∧ (∀ store, formatList MarshalIndent ⟨store, 0⟩ format = [])
      ∧ (∀ name environment store,
          formatList MarshalIndent ⟨⟨name, environment, []⟩ :: store, 1⟩ format
            = environment ++ [' '] ++ name ++ [' ', '[', ']', '\n']) := by
  have h : ∀ S : Servers, formatList MarshalIndent S format = S.toList.flatMap columnarLine := by
    intro S
    simp only [formatList, hnames, hjson, if_false]
    exact columnarOutput_eq S
  refine ⟨h S, ?_, ?_⟩
  · intro store
    rw [h]
    simp [Servers.toList]
  · intro name environment store
    rw [h]
    simp [Servers.toList, columnarLine, List.intercalate]

/-- The scenario under the selectors `JSON` and the empty string: `prod a [x y]` and
`dev b [x]`, one line each. -/
theorem formatList_columnar_witness :
    ((['J', 'S', 'O', 'N'] : GoString) ≠ ['n', 'a', 'm', 'e', 's'] ∧
      (['J', 'S', 'O', 'N'] : GoString) ≠ ['j', 's', 'o', 'n'] ∧
      formatList (fun _ => Except.ok []) scenario ['J', 'S', 'O', 'N']
        = ['p', 'r', 'o', 'd', ' ', 'a', ' ', '[', 'x', ' ', 'y', ']', '\n',
           'd', 'e', 'v', ' ', 'b', ' ', '[', 'x', ']', '\n']) ∧
    (([] : GoString) ≠ ['n', 'a', 'm', 'e', 's'] ∧ ([] : GoString) ≠ ['j', 's', 'o', 'n'] ∧
      formatList (fun _ => Except.ok []) scenario []
        = ['p', 'r', 'o', 'd', ' ', 'a', ' ', '[', 'x', ' ', 'y', ']', '\n',
           'd', 'e', 'v', ' ', 'b', ' ', '[', 'x', ']', '\n']) :=
  ⟨⟨by decide, by decide,
      ((formatList_columnar (fun _ => Except.ok []) scenario ['J', 'S', 'O', 'N']
        (by decide) (by decide)).1).trans (by decide)⟩,
    ⟨by decide, by decide,
      ((formatList_columnar (fun _ => Except.ok []) scenario [] (by decide) (by decide)).1).trans
        (by decide)⟩⟩

/-- C13: the exit code of the action is non-zero exactly when the configuration file cannot
be read; then `getServers` writes the message of the read error and a newline and stops the
process with exit code 1, and the action has written nothing else; whenever the file can be
read, whatever its content, the filters and the format, the exit code is 0. -/
theorem Action_exit_code (ReadFile : GoString → Except GoString GoString)
    (Unmarshal : GoString → Servers → Servers × Option GoString)
    (MarshalIndent : List Server → Except GoString GoString)
    (configFile environment : GoString) (tags : Option (List GoString)) (format : GoString) :
    ((Action ReadFile Unmarshal MarshalIndent configFile environment tags format).2 ≠ 0
        ↔ ∃ err, ReadFile configFile = Except.error err)
      ∧ (∀ err, ReadFile configFile = Except.error err →
          getServers ReadFile Unmarshal configFile = (err ++ ['\n'], Flow.exits 1) ∧
          Action ReadFile Unmarshal MarshalIndent configFile environment tags format
            = (err ++ ['\n'], 1))
      ∧ (∀ raw, ReadFile configFile = Except.ok raw →
          (Action ReadFile Unmarshal MarshalIndent configFile environment tags format).2 = 0) := by
  have hfail : ∀ err, ReadFile configFile = Except.error err →
      getServers ReadFile Unmarshal configFile = (err ++ ['\n'], Flow.exits 1) ∧
      Action ReadFile Unmarshal MarshalIndent configFile environment tags format
        = (err ++ ['\n'], 1) := by
    intro err h
    simp [Action, getServers, h]
  have hok : ∀ raw, ReadFile configFile = Except.ok raw →
      (Action ReadFile Unmarshal MarshalIndent configFile environment tags format).2 = 0 := by
    intro raw h
    simp [Action, getServers, h]
  refine ⟨?_, hfail, hok⟩
  cases h : ReadFile configFile with
  | error err =>
    rw [(hfail err h).2]
    simp
  | ok raw =>
    rw [hok raw h]
    simp

/-- An unreadable file gives the message and exit code 1; a readable file whose content the
JSON library rejects, with a filter that matches nothing and an unknown format, gives exit
code 0. -/
theorem Action_exit_code_witness :
    Action (fun _ => Except.error ['n', 'o', ' ', 'f', 'i', 'l', 'e'])
        (fun _ v => (v, none)) (fun _ => Except.ok []) ['f'] ['p'] (some [['x']]) []
      = (['n', 'o', ' ', 'f', 'i', 'l', 'e', '\n'], 1) ∧
    (Action (fun _ => Except.ok ['{']) (fun _ v => (v, some ['e', 'r', 'r']))
        (fun _ => Except.ok []) ['f'] ['p'] (some [['x']]) ['?']).2 = 0 :=
  ⟨((Action_exit_code (fun _ => Except.error ['n', 'o', ' ', 'f', 'i', 'l', 'e'])
      (fun _ v => (v, none)) (fun _ => Except.ok []) ['f'] ['p'] (some [['x']]) []).2.1
      ['n', 'o', ' ', 'f', 'i', 'l', 'e'] rfl).2,
    (Action_exit_code (fun _ => Except.ok ['{']) (fun _ v => (v, some ['e', 'r', 'r']))
      (fun _ => Except.ok []) ['f'] ['p'] (some [['x']]) ['?']).2.2 ['{'] rfl⟩

/-- C14: for a readable file, `getServers` writes nothing and returns the value that
`json.Unmarshal` left in the variable `servers`, whatever error it returned; so when the
content is malformed, which the library reports by an error while it leaves the nil slice
untouched, `getServers` returns the nil slice, of length zero, and the action writes the
rendering of the empty collection and the blank line and ends with exit code 0. -/
theorem getServers_malformed (ReadFile : GoString → Except GoString GoString)
    (Unmarshal : GoString → Servers → Servers × Option GoString)
    (MarshalIndent : List Server → Except GoString GoString)
    (configFile raw err environment : GoString) (tags : Option (List GoString))
    (format : GoString)
    (hread : ReadFile configFile = Except.ok raw)
    (hmalformed : Unmarshal raw nilServers = (nilServers, some err)) :
    getServers ReadFile Unmarshal configFile = ([], Flow.returns (Unmarshal raw nilServers).1)
      ∧ getServers ReadFile Unmarshal configFile = ([], Flow.returns nilServers)
      ∧ nilServers.len = 0 ∧ nilServers.toList = []
      ∧ Action ReadFile Unmarshal MarshalIndent configFile environment tags format
          = (formatList MarshalIndent nilServers format ++ ['\n'], 0)
      ∧ Action ReadFile Unmarshal MarshalIndent configFile environment tags
          ['n', 'a', 'm', 'e', 's'] = (['\n', '\n'], 0)
      ∧ (format ≠ ['n', 'a', 'm', 'e', 's'] → format ≠ ['j', 's', 'o', 'n'] →
          Action ReadFile Unmarshal MarshalIndent configFile environment tags format
            = (['\n'], 0)) := by
  have hget : getServers ReadFile Unmarshal configFile
      = ([], Flow.returns (Unmarshal raw nilServers).1) := by
    simp [getServers, hread]
  have hact : ∀ f, Action ReadFile Unmarshal MarshalIndent configFile environment tags f
      = (formatList MarshalIndent nilServers f ++ ['\n'], 0) := by
    intro f
    simp [Action, hget, hmalformed, filterServers_nil]
  refine ⟨hget, by rw [hget, hmalformed], rfl, rfl, hact format, ?_, ?_⟩
  · rw [hact]
    rfl
  · intro h1 h2
    rw [hact]
    simp [formatList, h1, h2, columnarOutput, nilServers, Servers.toList]

/-- A readable file with the content `{`, for which the library returns an error and stores
nothing: the action with the format `names` writes an empty line and the blank line. -/
theorem getServers_malformed_witness :
    (fun _ => Except.ok ['{']) (['f'] : GoString) = (Except.ok ['{'] : Except GoString GoString) ∧
      (fun (_ : GoString) (v : Servers) => (v, some ['e', 'r', 'r'])) ['{'] nilServers
        = (nilServers, some ['e', 'r', 'r']) ∧
      getServers (fun _ => Except.ok ['{']) (fun _ v => (v, some ['e', 'r', 'r'])) ['f']
        = ([], Flow.returns nilServers) ∧
      Action (fun _ => Except.ok ['{']) (fun _ v => (v, some ['e', 'r', 'r']))
          (fun _ => Except.ok []) ['f'] ['p'] (some [['x']]) ['n', 'a', 'm', 'e', 's']
        = (['\n', '\n'], 0) :=
  ⟨rfl, rfl,
    (getServers_malformed (fun _ => Except.ok ['{']) (fun _ v => (v, some ['e', 'r', 'r']))
      (fun _ => Except.ok []) ['f'] ['{'] ['e', 'r', 'r'] ['p'] (some [['x']])
      ['n', 'a', 'm', 'e', 's'] rfl rfl).2.1,
    (getServers_malformed (fun _ => Except.ok ['{']) (fun _ v => (v, some ['e', 'r', 'r']))
      (fun _ => Except.ok []) ['f'] ['{'] ['e', 'r', 'r'] ['p'] (some [['x']])
      ['n', 'a', 'm', 'e', 's'] rfl rfl).2.2.2.2.2.1⟩

/-- C15: for a well-formed slice `S`, `filterByTag S s` holds, in the order of `S`: for a
sub-token `s = "!" + u`, exactly the records whose tag sequence does not contain `u`, the
sub-token with one leading `!` removed (so `!!x` tests the absence of the tag `!x` and `!`
the absence of the empty tag); for every other sub-token, exactly the records whose tag
sequence contains `s`, where `contains` looks for an element equal to `s` as a string. -/
theorem filterByTag_spec (S : Servers) (hS : S.WF) :
    (∀ u, (filterByTag S ('!' :: u)).toList = S.toList.filter (fun r => decide (u ∉ r.Tags)))
      ∧ (∀ s, s.head? ≠ some '!' →
          (filterByTag S s).toList = S.toList.filter (fun r => decide (s ∈ r.Tags)))
      ∧ (filterByTag S ['!', '!', 'x']).toList
          = S.toList.filter (fun r => decide (['!', 'x'] ∉ r.Tags))
      ∧ (filterByTag S ['!']).toList = S.toList.filter (fun r => decide ([] ∉ r.Tags))
      ∧ (∀ u, TrimPrefix ('!' :: u) ['!'] = u)
      ∧ (∀ tags t, contains tags t = true ↔ ∃ tag, tag ∈ tags ∧ tag = t) := by
  have hneg : ∀ u, (filterByTag S ('!' :: u)).toList
      = S.toList.filter (fun r => decide (u ∉ r.Tags)) := by
    intro u
    rw [filterByTag_toList S _ hS]
    congr 1
  refine ⟨hneg, ?_, hneg _, hneg _, ?_, ?_⟩
  · intro s hs
    rw [filterByTag_toList S _ hS]
    congr 1
    funext r
    exact subTokenHolds_plain s hs r
  · intro u
    simp [TrimPrefix, hasPrefix_bang_cons]
  · intro tags t
    rw [contains_eq_decide_mem]
    simp

/-- Three records with the tags `!x`, `x` and none: `!!x` keeps those without the tag `!x`,
`!` keeps all (no empty tag), `x` keeps the one with the tag `x`, and `X` and ` x` keep none. -/
theorem filterByTag_spec_witness :
    (⟨[⟨['a'], [], [['!', 'x']]⟩, ⟨['b'], [], [['x']]⟩, ⟨['c'], [], []⟩], 3⟩ : Servers).WF ∧
      (filterByTag ⟨[⟨['a'], [], [['!', 'x']]⟩, ⟨['b'], [], [['x']]⟩, ⟨['c'], [], []⟩], 3⟩
          ['!', '!', 'x']).toList
        = [⟨['b'], [], [['x']]⟩, ⟨['c'], [], []⟩] ∧
      (filterByTag ⟨[⟨['a'], [], [['!', 'x']]⟩, ⟨['b'], [], [['x']]⟩, ⟨['c'], [], []⟩], 3⟩
          ['x']).toList
        = [⟨['b'], [], [['x']]⟩] ∧
      (filterByTag ⟨[⟨['a'], [], [['!', 'x']]⟩, ⟨['b'], [], [['x']]⟩, ⟨['c'], [], []⟩], 3⟩
          ['X']).toList = [] ∧
      (filterByTag ⟨[⟨['a'], [], [['!', 'x']]⟩, ⟨['b'], [], [['x']]⟩, ⟨['c'], [], []⟩], 3⟩
          [' ', 'x']).toList = [] :=
  ⟨by decide,
    ((filterByTag_spec ⟨[⟨['a'], [], [['!', 'x']]⟩, ⟨['b'], [], [['x']]⟩, ⟨['c'], [], []⟩], 3⟩
      (by decide)).2.2.1).trans (by decide),
    ((filterByTag_spec ⟨[⟨['a'], [], [['!', 'x']]⟩, ⟨['b'], [], [['x']]⟩, ⟨['c'], [], []⟩], 3⟩
      (by decide)).2.1 ['x'] (by decide)).trans (by decide),
    ((filterByTag_spec ⟨[⟨['a'], [], [['!', 'x']]⟩, ⟨['b'], [], [['x']]⟩, ⟨['c'], [], []⟩], 3⟩
      (by decide)).2.1 ['X'] (by decide)).trans (by decide),
    ((filterByTag_spec ⟨[⟨['a'], [], [['!', 'x']]⟩, ⟨['b'], [], [['x']]⟩, ⟨['c'], [], []⟩], 3⟩
      (by decide)).2.1 [' ', 'x'] (by decide)).trans (by decide)⟩

/-- C16: for a well-formed slice `S` and every predicate, the filter loop, which appends to
`servers[:0]` while it ranges over `servers`, never allocates: before the iteration at each
read index `k` the write index is at most `k`, the cells from `k` on still hold what they held
at the start, so the record read at `k` is the original one; and the records returned are
those of the construction of a new sequence, for `filterByEnvironment` and for `filterByTag`. -/
theorem filterLoop_in_place (keep : Server → Bool) (S : Servers) (hS : S.WF) :
    (∀ k, k ≤ S.len →
        (filterLoopAt keep S k).own = none ∧ (filterLoopAt keep S k).len ≤ k ∧
        (filterLoopAt keep S k).src.drop k = S.store.drop k ∧
        (filterLoopAt keep S k).src[k]? = S.store[k]?)
      ∧ filterLoop keep S = (filterLoopAt keep S S.len).toServers
      ∧ (filterLoop keep S).toList = freshFilter keep S.toList
      ∧ (∀ E, (filterByEnvironment S E).toList
          = freshFilter (fun r => decide (r.Environment = E)) S.toList)
      ∧ (∀ t, (filterByTag S t).toList = freshFilter (tagKeeps t) S.toList) := by
  have hS2 : S.len ≤ S.store.length := hS
  refine ⟨?_, rfl, ?_, ?_, ?_⟩
  · intro k hk
    have inv := loopInv_run keep S.store k (by omega)
    refine ⟨inv.shared, inv.write_le_read, inv.unread, ?_⟩
    have h := congrArg (fun l => l[0]?) inv.unread
    simpa [filterLoopAt, List.getElem?_drop] using h
  · rw [freshFilter_eq_filter]
    exact filterLoop_toList keep S hS
  · intro E
    rw [freshFilter_eq_filter]
    exact filterLoop_toList _ S hS
  · intro t
    rw [freshFilter_eq_filter]
    exact filterLoop_toList _ S hS

/-- The scenario in the order `b`, `a`, filtered by `prod`: before the iteration at read
index 1 the write index is 0, record `a` is read at index 1 and written to cell 0, and the
result is `[a]`, as by the construction of a new sequence. -/
theorem filterLoop_in_place_witness :
    (⟨[scenarioB, scenarioA], 2⟩ : Servers).WF ∧
      (filterLoopAt (fun r => decide (r.Environment = ['p', 'r', 'o', 'd']))
        ⟨[scenarioB, scenarioA], 2⟩ 1).len ≤ 1 ∧
      filterByEnvironment ⟨[scenarioB, scenarioA], 2⟩ ['p', 'r', 'o', 'd']
        = ⟨[scenarioA, scenarioA], 1⟩ ∧
      (filterLoop (fun r => decide (r.Environment = ['p', 'r', 'o', 'd']))
          ⟨[scenarioB, scenarioA], 2⟩).toList
        = freshFilter (fun r => decide (r.Environment = ['p', 'r', 'o', 'd']))
            [scenarioB, scenarioA] :=
  ⟨by decide,
    ((filterLoop_in_place (fun r => decide (r.Environment = ['p', 'r', 'o', 'd']))
      ⟨[scenarioB, scenarioA], 2⟩ (by decide)).1 1 (by decide)).2.1,
    by decide,
    (filterLoop_in_place (fun r => decide (r.Environment = ['p', 'r', 'o', 'd']))
      ⟨[scenarioB, scenarioA], 2⟩ (by decide)).2.2.1⟩

/-- C17: for a well-formed slice `C`, every environment `E` and token lists `T` and `T2`
that are permutations of each other, `filterServers` gives the same records in the same order
for both; and filtering by the tags first and by the environment afterwards gives the same
records as `filterServers`, which filters by the environment first. -/
theorem filterServers_order_independent (C : Servers) (hC : C.WF) (E : GoString)
    (T T2 : List GoString) (hperm : T2.Perm T) :
    (filterServers C E (some T2)).toList = (filterServers C E (some T)).toList
      ∧ (filterServers (filterServers C [] (some T)) E none).toList
          = (filterServers C E (some T)).toList
      ∧ (E ≠ [] → (filterByEnvironment (filterServers C [] (some T)) E).toList
          = (filterServers C E (some T)).toList) := by
  have hmid := filterServers_toList C hC [] (some T)
  refine ⟨?_, ?_, ?_⟩
  · rw [(filterServers_toList C hC E (some T2)).2, (filterServers_toList C hC E (some T)).2]
    congr 1
    funext r
    simp only [Option.getD_some]
    rw [allTagsHold_perm T2 T hperm]
  · rw [(filterServers_toList _ hmid.1 E none).2, hmid.2,
      (filterServers_toList C hC E (some T)).2, List.filter_filter]
    congr 1
    funext r
    simp [allTagsHold]
  · intro hE
    rw [filterByEnvironment_toList _ _ hmid.1, hmid.2,
      (filterServers_toList C hC E (some T)).2, List.filter_filter]
    congr 1
    funext r
    simp [hE]

/-- The scenario with environment `prod`: the tokens `y`, `x` and the tokens `x`, `y` give
the same records. -/
theorem filterServers_order_independent_witness :
    scenario.WF ∧ ([['y'], ['x']] : List GoString).Perm [['x'], ['y']] ∧
      (filterServers scenario ['p', 'r', 'o', 'd'] (some [['y'], ['x']])).toList
        = (filterServers scenario ['p', 'r', 'o', 'd'] (some [['x'], ['y']])).toList :=
  ⟨by decide, List.Perm.swap _ _ _,
    (filterServers_order_independent scenario (by decide) ['p', 'r', 'o', 'd']
      [['x'], ['y']] [['y'], ['x']] (List.Perm.swap _ _ _)).1⟩

/-- C18: for a well-formed slice `C`, the empty sub-token is a filter pass of its own:
`filterServers C "" [""]` holds exactly the records of `C` that have an empty-string tag, and
the tokens `a,`, `,a` and `a,,b` give the records of the tokens without the empty piece that
also have an empty-string tag; so when no record of `C` has an empty-string tag the results
for `""` and for `a,` are empty.  On the scenario the tokens `x,`, `,x` and `x,,y` and the
token list `[""]` give nothing, while `x`, `x,y` and the empty token list give records. -/
theorem filterServers_empty_subtoken (C : Servers) (hC : C.WF) (a b : GoString) :
    (filterServers C [] (some [[]])).toList
        = C.toList.filter (fun r => decide (([] : GoString) ∈ r.Tags))
      ∧ (filterServers C [] (some [a ++ [',']])).toList
        = (filterServers C [] (some [a])).toList.filter
            (fun r => decide (([] : GoString) ∈ r.Tags))
      ∧ (filterServers C [] (some [',' :: a])).toList
        = (filterServers C [] (some [a])).toList.filter
            (fun r => decide (([] : GoString) ∈ r.Tags))
      ∧ (filterServers C [] (some [a ++ [',', ','] ++ b])).toList
        = (filterServers C [] (some [a, b])).toList.filter
            (fun r => decide (([] : GoString) ∈ r.Tags))
      ∧ ((∀ r, r ∈ C.toList → ([] : GoString) ∉ r.Tags) →
          (filterServers C [] (some [[]])).toList = [] ∧
          (filterServers C [] (some [a ++ [',']])).toList = [])
      ∧ ((filterServers scenario [] (some [[]])).toList = [] ∧
          (filterServers scenario [] (some [])).toList = [scenarioA, scenarioB] ∧
          (filterServers scenario [] (some [['x', ',']])).toList = [] ∧
          (filterServers scenario [] (some [[',', 'x']])).toList = [] ∧
          (filterServers scenario [] (some [['x']])).toList = [scenarioA, scenarioB] ∧
          (filterServers scenario [] (some [['x', ',', ',', 'y']])).toList = [] ∧
          (filterServers scenario [] (some [['x', ',', 'y']])).toList = [scenarioA]) := by
  have h0 : (filterServers C [] (some [[]])).toList
      = C.toList.filter (fun r => decide (([] : GoString) ∈ r.Tags)) := by
    rw [filterServers_tags_toList C hC]
    congr 1
    funext r
    simp [allTagsHold, Split, subTokenHolds]
  have h1 : (filterServers C [] (some [a ++ [',']])).toList
      = (filterServers C [] (some [a])).toList.filter
          (fun r => decide (([] : GoString) ∈ r.Tags)) := by
    apply filter_emptyTag C hC
    intro r
    simp [allTagsHold, Split_trailing_comma, List.all_append, subTokenHolds]
  have h2 : (filterServers C [] (some [',' :: a])).toList
      = (filterServers C [] (some [a])).toList.filter
          (fun r => decide (([] : GoString) ∈ r.Tags)) := by
    apply filter_emptyTag C hC
    intro r
    simp [allTagsHold, Split_leading_comma, subTokenHolds, Bool.and_comm]
  have h3 : (filterServers C [] (some [a ++ [',', ','] ++ b])).toList
      = (filterServers C [] (some [a, b])).toList.filter
          (fun r => decide (([] : GoString) ∈ r.Tags)) := by
    apply filter_emptyTag C hC
    intro r
    have he : subTokenHolds [] r = decide (([] : GoString) ∈ r.Tags) := rfl
    simp only [allTagsHold, Split_doubled_comma, List.all_cons, List.all_nil, List.all_append,
      Bool.and_true, he, Bool.and_assoc]
    congr 1
    exact Bool.and_comm _ _
  refine ⟨h0, h1, h2, h3, ?_, by decide⟩
  intro hnone
  have hempty : C.toList.filter (fun r => decide (([] : GoString) ∈ r.Tags)) = [] := by
    rw [List.filter_eq_nil_iff]
    intro r hr
    simpa using hnone r hr
  refine ⟨by rw [h0, hempty], ?_⟩
  rw [h1, List.filter_eq_nil_iff]
  intro r hr
  rw [filterServers_tags_toList C hC, List.mem_filter] at hr
  simpa using hnone r hr.1

/-- On the scenario no record has an empty-string tag, so `""` and `x,` give nothing; with a
record that has the tags `""` and `x` in front, `""` gives that record. -/
theorem filterServers_empty_subtoken_witness :
    (scenario.WF ∧ (∀ r, r ∈ scenario.toList → ([] : GoString) ∉ r.Tags) ∧
      (filterServers scenario [] (some [[]])).toList = [] ∧
      (filterServers scenario [] (some [['x'] ++ [',']])).toList = []) ∧
    ((⟨[⟨['c'], [], [[], ['x']]⟩, scenarioB], 2⟩ : Servers).WF ∧
      (filterServers ⟨[⟨['c'], [], [[], ['x']]⟩, scenarioB], 2⟩ [] (some [[]])).toList
        = [⟨['c'], [], [[], ['x']]⟩]) :=
  ⟨⟨by decide, by decide,
      (filterServers_empty_subtoken scenario (by decide) ['x'] ['y']).2.2.2.2.1 (by decide)⟩,
    ⟨by decide,
      ((filterServers_empty_subtoken ⟨[⟨['c'], [], [[], ['x']]⟩, scenarioB], 2⟩ (by decide)
        ['x'] ['y']).1).trans (by decide)⟩⟩

/-- C19: for a well-formed slice `C`, every environment `E` and every token list `T` (nil or
not), filtering the result of `filterServers C E T` again with `E` and `T` gives that result
again, the same slice and so the same records. -/
theorem filterServers_idempotent (C : Servers) (hC : C.WF) (E : GoString)
    (T : Option (List GoString)) :
    filterServers (filterServers C E T) E T = filterServers C E T
      ∧ (filterServers (filterServers C E T) E T).toList = (filterServers C E T).toList := by
  have h := filterServers_toList C hC E T
  have hfix : filterServers (filterServers C E T) E T = filterServers C E T := by
    apply filterServers_fixed _ h.1
    intro r hr
    rw [h.2, List.mem_filter, Bool.and_eq_true] at hr
    exact hr.2
  exact ⟨hfix, by rw [hfix]⟩

/-- The scenario with environment `dev` and the token `x,!y`, filtered twice. -/
theorem filterServers_idempotent_witness :
    scenario.WF ∧
      filterServers (filterServers scenario ['d', 'e', 'v'] (some [['x', ',', '!', 'y']]))
          ['d', 'e', 'v'] (some [['x', ',', '!', 'y']])
        = filterServers scenario ['d', 'e', 'v'] (some [['x', ',', '!', 'y']]) ∧
      (filterServers scenario ['d', 'e', 'v'] (some [['x', ',', '!', 'y']])).toList
        = [scenarioB] :=
  ⟨by decide,
    (filterServers_idempotent scenario (by decide) ['d', 'e', 'v']
      (some [['x', ',', '!', 'y']])).1,
    by decide⟩

end ListServers
